import Mathlib

/-!
# Verification of ooplus.js (`src/index.js`)

A shallow embedding of the repository's four functions — `callSuper`, `$super`,
`property`, `enhance`, `extend` — over an explicit heap of JavaScript-like
objects.

Modelling conventions:

* An object is an ordered list of own data properties (JS preserves insertion
  order; updating an existing key keeps its position, new keys are appended)
  plus an optional prototype link and, for `Proxy` exotic objects, the proxy
  target.  Accessor properties and property attribute flags (writable /
  enumerable / configurable) are not modelled: no claim exercises them, and
  `Object.defineProperty` is modelled as installing the descriptor's `value`
  field as a data property.
* `null` at the end of a prototype chain is represented by `Value.undef`
  (both are falsy, which is all the `while (base)` loop observes).
* Prototype-chain walks carry fuel `h.length + 1`, which is enough for any
  acyclic chain of valid addresses; a cyclic chain exhausts the fuel and the
  walk answers `none`, mirroring the real loop's divergence.
* User-supplied functions (method bodies, `preConstructor`, `constructor`)
  are either quantified over as an arbitrary application semantics
  `ApplySem`, or executed by the fuel-indexed interpreter `applyFn` over a
  table of small method bodies (`Body`) — enough to express the spec's test
  scenarios, including bodies that re-enter `callSuper`.
* JavaScript identifiers containing `$` keep the `$` in property-name
  strings ("$BaseReference", "$SuperProxy", "$IsPropertyDescriptor"); the
  exported function `$super` is named `dollarSuper`.
-/

/-- JavaScript values, as far as the claims need them.  Function identity
(`===` on functions) is identity of the `fn` index into a function table.
`superCall t m` is the closure `(...args) => callSuper(target, m, ...args)`
produced by the `$super` proxy's `get` trap.  Arrays (the return value of a
`preConstructor`) are heap objects carrying their elements in the `arrVal`
payload. -/
inductive Value where
  | undef
  | bool (b : Bool)
  | num (n : Int)
  | str (s : String)
  | obj (a : Nat)
  | fn (id : Nat)
  | superCall (target : Nat) (name : String)
deriving DecidableEq, Repr

/-- A heap object: ordered own data properties, optional prototype link,
the proxy target for `Proxy` exotic objects (`none` for ordinary objects),
and, for JS arrays, the element payload (the indexed properties and
`length`, kept opaque because the claims never inspect them
element-by-element). -/
structure Obj where
  props : List (String × Value)
  proto : Option Nat
  proxyTarget : Option Nat
  arrVal : Option (List Value)
deriving DecidableEq, Repr

def emptyObj : Obj := ⟨[], none, none, none⟩

abbrev Heap := List Obj

def getObj (h : Heap) (a : Nat) : Option Obj := h[a]?

/-- Own-property lookup in an ordered property list. -/
def lookupProp : List (String × Value) → String → Option Value
  | [], _ => none
  | (k', v) :: rest, k => if k' = k then some v else lookupProp rest k

/-- JS assignment semantics on an own-property list: an existing key keeps
its position, a new key is appended. -/
def setEntry : List (String × Value) → String → Value → List (String × Value)
  | [], k, v => [(k, v)]
  | (k', v') :: rest, k, v =>
    if k' = k then (k, v) :: rest else (k', v') :: setEntry rest k v

/-- JS `delete` on an own-property list. -/
def delEntry : List (String × Value) → String → List (String × Value)
  | [], _ => []
  | (k', v') :: rest, k =>
    if k' = k then delEntry rest k else (k', v') :: delEntry rest k

def getOwn (h : Heap) (a : Nat) (k : String) : Option Value :=
  match getObj h a with
  | some o => lookupProp o.props k
  | none => none

def ownKeys (h : Heap) (a : Nat) : List String :=
  match getObj h a with
  | some o => o.props.map Prod.fst
  | none => []

def setProp (h : Heap) (a : Nat) (k : String) (v : Value) : Heap :=
  match getObj h a with
  | some o => h.set a ⟨setEntry o.props k v, o.proto, o.proxyTarget, o.arrVal⟩
  | none => h

def delProp (h : Heap) (a : Nat) (k : String) : Heap :=
  match getObj h a with
  | some o => h.set a ⟨delEntry o.props k, o.proto, o.proxyTarget, o.arrVal⟩
  | none => h

def alloc (h : Heap) (o : Obj) : Heap × Nat := (h ++ [o], h.length)

def protoOf (h : Heap) (a : Nat) : Option Nat :=
  match getObj h a with
  | some o => o.proto
  | none => none

/-- Models `Object.getPrototypeOf(base)` as the next loop cursor: the parent
object, or `undef` (standing for `null`) at the end of the chain. -/
def protoVal (h : Heap) (a : Nat) : Value :=
  match getObj h a with
  | none => .undef
  | some o =>
    match o.proto with
    | none => .undef
    | some p => .obj p

/-- Fuel-indexed prototype-chain lookup (JS `target[k]` / `k in target`). -/
def chainLookup (h : Heap) (k : String) : Nat → Nat → Option Value
  | 0, _ => none
  | fuel+1, a =>
    match getObj h a with
    | none => none
    | some o =>
      match lookupProp o.props k with
      | some v => some v
      | none =>
        match o.proto with
        | some p => chainLookup h k fuel p
        | none => none

def chainGet (h : Heap) (a : Nat) (k : String) : Option Value :=
  chainLookup h k (h.length + 1) a

/-- JS truthiness. -/
def truthy : Value → Bool
  | .undef => false
  | .bool b => b
  | .num n => n ≠ 0
  | .str s => s ≠ ""
  | .obj _ => true
  | .fn _ => true
  | .superCall _ _ => true

/-- JS string coercion, as far as the test bodies need it
(`undefined + "B"` is `"undefinedB"`). -/
def valToStr : Value → String
  | .str s => s
  | .undef => "undefined"
  | .bool true => "true"
  | .bool false => "false"
  | .num n => toString n
  | _ => "[object]"

def valToNum : Value → Int
  | .num n => n
  | _ => 0

/-- Models `CreateListFromArrayLike`: turn an array heap object into an argument
list, as `Reflect.construct` does with its second argument.  A non-array
object yields `none` (the real operation raises `TypeError`). -/
def arrayToList (h : Heap) (a : Nat) : Option (List Value) :=
  match getObj h a with
  | some o => o.arrVal
  | none => none

/-- Allocate a fresh JS array holding the given values. -/
def allocArray (h : Heap) (vs : List Value) : Heap × Nat :=
  alloc h ⟨[], none, none, some vs⟩

/-- Result of invoking a user function: a normal return or a raised
failure. -/
inductive Outcome where
  | ret (v : Value)
  | thrown (e : Value)
deriving DecidableEq, Repr

/-- An application semantics for user-supplied functions:
`app h f thisV args` applies the callable value `f` with receiver `thisV`
and arguments `args` in heap `h`; `none` means divergence / fuel
exhaustion. -/
def ApplySem := Heap → Value → Value → List Value → Option (Heap × Outcome)

/-! ## `callSuper` (src/index.js lines 11–41) -/

/-- The `while (base)` loop of `callSuper`.  The cursor `base` starts as a
`Value` (the marker's value or the target object); each level's own
property of `methodName` is compared by identity against
`directBaseMethod`.  When the target override is found, the
ancestor-dispatch marker `$BaseReference` is written onto `target`, the
override is applied with receiver `target`, and — exactly as in the source,
which has no try/finally — the marker is deleted only on the normal-return
path, not when the override throws. -/
def superWalk (app : ApplySem) (target : Nat) (methodName : String)
    (args : List Value) (directBaseMethod : Value) (h : Heap) :
    Nat → Value → Bool → Option (Heap × Outcome)
  | 0, _, _ => none
  | fuel+1, base, isSuper =>
    match base with
    | .obj a =>
      match getOwn h a methodName with
      | some v =>
        if v = directBaseMethod then
          superWalk app target methodName args directBaseMethod h fuel (protoVal h a) true
        else if isSuper then
          match app (setProp h target "$BaseReference" (.obj a)) v (.obj target) args with
          | some (h2, .ret r) => some (delProp h2 target "$BaseReference", .ret r)
          | some (h2, .thrown e) => some (h2, .thrown e)
          | none => none
        else
          superWalk app target methodName args directBaseMethod h fuel (protoVal h a) isSuper
      | none =>
        superWalk app target methodName args directBaseMethod h fuel (protoVal h a) isSuper
    | _ => some (h, .ret .undef)

/-- Models `let base = ("$BaseReference" in target) ? target["$BaseReference"] : target`. -/
def baseOf (h : Heap) (target : Nat) : Value :=
  match chainGet h target "$BaseReference" with
  | some v => v
  | none => .obj target

/-- Models `const directBaseMethod = base[methodName]`. -/
def dbmOf (h : Heap) (base : Value) (methodName : String) : Value :=
  match base with
  | .obj a => (chainGet h a methodName).getD .undef
  | _ => .undef

def callSuper (app : ApplySem) (h : Heap) (target : Nat) (methodName : String)
    (args : List Value) : Option (Heap × Outcome) :=
  superWalk app target methodName args (dbmOf h (baseOf h target) methodName) h
    (h.length + 1) (baseOf h target) false

/-- Pure mirror of `superWalk` that only resolves which chain level (and
which function value) the walk would invoke: `some (some (a, v))` = the
level `a` whose own method `v` is the dispatch target, `some none` = chain
exhausted with no target ("no ancestor override exists"), `none` = fuel ran
out (cyclic chain). -/
def resolveSuper (h : Heap) (methodName : String) (directBaseMethod : Value) :
    Nat → Value → Bool → Option (Option (Nat × Value))
  | 0, _, _ => none
  | fuel+1, base, isSuper =>
    match base with
    | .obj a =>
      match getOwn h a methodName with
      | some v =>
        if v = directBaseMethod then
          resolveSuper h methodName directBaseMethod fuel (protoVal h a) true
        else if isSuper then
          some (some (a, v))
        else
          resolveSuper h methodName directBaseMethod fuel (protoVal h a) isSuper
      | none =>
        resolveSuper h methodName directBaseMethod fuel (protoVal h a) isSuper
    | _ => some none

/-! ## `$super` (src/index.js lines 49–62) -/

/-- Models `$super($this)`: return the cached proxy if `"$SuperProxy" in $this`,
otherwise allocate a fresh `Proxy` whose target is `$this`, cache it on
`$this`, and return it. -/
def dollarSuper (h : Heap) (thisA : Nat) : Heap × Value :=
  match chainGet h thisA "$SuperProxy" with
  | some v => (h, v)
  | none =>
    let al := alloc h ⟨[], none, some thisA, none⟩
    (setProp al.1 thisA "$SuperProxy" (.obj al.2), .obj al.2)

/-- Property access on an object.  On a `Proxy` created by `dollarSuper`,
every read runs the `get` trap, which returns the closure
`(...args) => callSuper(target, property, ...args)` — it never consults the
object's own or inherited properties.  On an ordinary object it is a plain
chain lookup. -/
def proxyGet (h : Heap) (a : Nat) (p : String) : Value :=
  match getObj h a with
  | none => .undef
  | some o =>
    match o.proxyTarget with
    | none => (chainGet h a p).getD .undef
    | some t => .superCall t p

/-! ## `property` and member application (src/index.js lines 63–99) -/

/-- Models `Object.prototype.hasOwnProperty.call(target, "$IsPropertyDescriptor")`:
an own-property check only — an inherited marker does not count. -/
def isMarkedPropertyDescriptor (h : Heap) (v : Value) : Bool :=
  match v with
  | .obj a => (getOwn h a "$IsPropertyDescriptor").isSome
  | _ => false

/-- Models `property(descriptor)`: tag the given descriptor (or a fresh empty one
when the argument is falsy) with the own marker `$IsPropertyDescriptor` and
return it. -/
def property (h : Heap) (descriptor : Value) : Heap × Value :=
  if truthy descriptor then
    match descriptor with
    | .obj a => (setProp h a "$IsPropertyDescriptor" (.bool true), .obj a)
    | v => (h, v)
  else
    let al := alloc h ⟨[("$IsPropertyDescriptor", .bool true)], none, none, none⟩
    (al.1, .obj al.2)

/-- The member-installation branch shared verbatim by `enhance` and the
member loop of `extend`: a member carrying the own marker is installed
through `Object.defineProperty` (modelled as installing its `value` field),
any other member is assigned directly. -/
def applyMember (h : Heap) (protoA : Nat) (k : String) (member : Value) : Heap :=
  if isMarkedPropertyDescriptor h member then
    match member with
    | .obj d => setProp h protoA k ((getOwn h d "value").getD .undef)
    | _ => h
  else
    setProp h protoA k member

/-- One iteration of the `for (const key in members)` loop: read the member
from the live heap and install it. -/
def memberStep (protoA mA : Nat) (h : Heap) (k : String) : Heap :=
  applyMember h protoA k ((getOwn h mA k).getD .undef)

/-! ## Classes, `enhance` and `extend` (src/index.js lines 84–144) -/

/-- Result of a class's construction function. -/
inductive CtorOut where
  | inst (a : Nat)
  | thrown (e : Value)
deriving DecidableEq, Repr

/-- A class: a shared prototype object and a construction function.  The
construction function receives the prototype that `new.target` dictates for
the instance (`Reflect.construct`'s third argument). -/
structure JClass where
  protoA : Nat
  ctor : Heap → Nat → List Value → Option (Heap × CtorOut)

/-- Models `enhance(constructor, members)`: install every own-enumerable entry of
the member map onto the class's existing prototype and return the same
class. -/
def enhance (h : Heap) (c : JClass) (mA : Nat) : Heap × JClass :=
  ((ownKeys h mA).foldl (memberStep c.protoA mA) h, c)

/-- Models `Object.assign(result, courier)`: copy the courier's own properties
onto the instance, in order. -/
def objAssign (h : Heap) (dst src : Nat) : Heap :=
  match getObj h src with
  | some o => o.props.foldl (fun h' kv => setProp h' dst kv.1 kv.2) h
  | none => h

/-- Tail of the derived construction after the base constructor produced
the instance: copy the courier's fields, then run the descriptor's
`constructor` (if truthy) with receiver = the instance and the original
arguments. -/
def extendAfterBase (app : ApplySem) (descA : Nat) (args : List Value)
    (courierA : Nat) (h3 : Heap) (resultA : Nat) : Option (Heap × CtorOut) :=
  let h4 := objAssign h3 resultA courierA
  let ctorV := (chainGet h4 descA "constructor").getD .undef
  if truthy ctorV then
    match app h4 ctorV (.obj resultA) args with
    | some (h5, .ret _) => some (h5, .inst resultA)
    | some (h5, .thrown e) => some (h5, .thrown e)
    | none => none
  else
    some (h4, .inst resultA)

/-- Models `Reflect.construct(baseClass, baseArgs, derivedClass)` followed by the
post-base steps.  The derived class — not the caller's `new.target` — is
hard-wired as the construction target, so the instance's prototype is the
derived prototype `protoA`. -/
def extendWithBaseArgs (app : ApplySem) (baseClass : JClass) (descA protoA : Nat)
    (args : List Value) (courierA : Nat) (h2 : Heap) (baseArgs : List Value) :
    Option (Heap × CtorOut) :=
  match baseClass.ctor h2 protoA baseArgs with
  | some (h3, .inst r) => extendAfterBase app descA args courierA h3 r
  | some (h3, .thrown e) => some (h3, .thrown e)
  | none => none

/-- The body of the derived class's construction function (the closure
`function (...args) { ... }` inside `extend`): allocate the courier, run
`preConstructor` (if truthy) with receiver = courier to transform the
arguments, then construct through the base class.  A `preConstructor`
result that is not an array makes `Reflect.construct` fail
(`CreateListFromArrayLike`). -/
def extendConstruct (app : ApplySem) (baseClass : JClass) (descA protoA : Nat)
    (hh : Heap) (_ntProto : Nat) (args : List Value) : Option (Heap × CtorOut) :=
  let al := alloc hh emptyObj
  let preV := (chainGet al.1 descA "preConstructor").getD .undef
  if truthy preV then
    match app al.1 preV (.obj al.2) args with
    | some (h2, .ret (.obj arrA)) =>
      match arrayToList h2 arrA with
      | some baseArgs => extendWithBaseArgs app baseClass descA protoA args al.2 h2 baseArgs
      | none => some (h2, .thrown (.str "TypeError"))
    | some (h2, .ret _) => some (h2, .thrown (.str "TypeError"))
    | some (h2, .thrown e) => some (h2, .thrown e)
    | none => none
  else
    extendWithBaseArgs app baseClass descA protoA args al.2 al.1 args

/-- The member loop of `extend`: like `enhance`'s loop but skipping the two
reserved keys. -/
def applyMembersLoop (h : Heap) (protoA descA : Nat) : Heap :=
  (ownKeys h descA).foldl (fun h' k =>
    if k = "preConstructor" then h'
    else if k = "constructor" then h'
    else memberStep protoA descA h' k) h

/-- Models `extend(baseClass, classDescriptor)`: create the derived prototype
(`Object.create(baseClass.prototype)`), apply the non-reserved members, and
return the derived class whose construction function is
`extendConstruct`. -/
def extend (app : ApplySem) (h : Heap) (baseClass : JClass) (descA : Nat) :
    Heap × JClass :=
  let al := alloc h ⟨[], some baseClass.protoA, none, none⟩
  (applyMembersLoop al.1 al.2 descA,
   ⟨al.2, extendConstruct app baseClass descA al.2⟩)

/-! ## A fuel-indexed interpreter for user method bodies -/

/-- Small method bodies, enough for the spec's test scenarios. -/
inductive Body where
  /-- Body `return s`. -/
  | retStr (s : String)
  /-- Body `throw s`. -/
  | throwStr (s : String)
  /-- Body `return callSuper(this, m, ...[]) + s`. -/
  | superThenAppend (m : String) (s : String)
  /-- Body `return [arg0 + arg1 + ...]` (a `preConstructor` summing its arguments). -/
  | argsSumList
  /-- Body `this[k1] = arg0; this[k2] = arg1`. -/
  | storeTwoFields (k1 k2 : String)
  /-- Body `this[k1] = v1; this[k2] = v2; return [...args]` (a `preConstructor`
  staging fields on the courier and passing the arguments through) -/
  | writeTwoRetArgs (k1 : String) (v1 : Value) (k2 : String) (v2 : Value)
  /-- Body `this[k] = v`. -/
  | setFieldConst (k : String) (v : Value)

def FnTable := Nat → Option Body

def runBody (app : ApplySem) (h : Heap) (thisV : Value) (b : Body)
    (args : List Value) : Option (Heap × Outcome) :=
  match b with
  | .retStr s => some (h, .ret (.str s))
  | .throwStr s => some (h, .thrown (.str s))
  | .superThenAppend m s =>
    match thisV with
    | .obj a =>
      match callSuper app h a m [] with
      | some (h1, .ret r) => some (h1, .ret (.str (valToStr r ++ s)))
      | some (h1, .thrown e) => some (h1, .thrown e)
      | none => none
    | _ => some (h, .thrown (.str "TypeError"))
  | .argsSumList =>
    let al := allocArray h [.num (args.foldl (fun acc a => acc + valToNum a) 0)]
    some (al.1, .ret (.obj al.2))
  | .storeTwoFields k1 k2 =>
    match thisV with
    | .obj a =>
      some (setProp (setProp h a k1 (args.getD 0 .undef)) a k2 (args.getD 1 .undef),
        .ret .undef)
    | _ => some (h, .thrown (.str "TypeError"))
  | .writeTwoRetArgs k1 v1 k2 v2 =>
    match thisV with
    | .obj a =>
      let al := allocArray (setProp (setProp h a k1 v1) a k2 v2) args
      some (al.1, .ret (.obj al.2))
    | _ => some (h, .thrown (.str "TypeError"))
  | .setFieldConst k v =>
    match thisV with
    | .obj a => some (setProp h a k v, .ret .undef)
    | _ => some (h, .thrown (.str "TypeError"))

/-- The fuel-indexed application semantics over a table of bodies.  A
`superCall` closure (from the `$super` proxy) dispatches through
`callSuper`; applying a non-callable raises `TypeError`. -/
def applyFn (tbl : FnTable) : Nat → ApplySem
  | 0 => fun _ _ _ _ => none
  | fuel+1 => fun h f thisV args =>
    match f with
    | .fn id =>
      match tbl id with
      | some b => runBody (applyFn tbl fuel) h thisV b args
      | none => some (h, .thrown (.str "TypeError"))
    | .superCall t m => callSuper (applyFn tbl fuel) h t m args
    | _ => some (h, .thrown (.str "TypeError"))

/-- The value a member-map entry ends up installing on the prototype:
a tagged descriptor installs its `value` field, anything else is assigned
as-is. -/
def installVal (h : Heap) (v : Value) : Value :=
  if isMarkedPropertyDescriptor h v then
    match v with
    | .obj d => (getOwn h d "value").getD .undef
    | _ => v
  else v

/-- Number of `$BaseReference` bindings among an object's own properties
(the ancestor-dispatch markers carried by the instance at address `a`). -/
def markerCount (h : Heap) (a : Nat) : Nat :=
  match getObj h a with
  | some o => (o.props.map Prod.fst).count "$BaseReference"
  | none => 0

/-- Well-formed heap: every object's own-property list binds each key at
most once (guaranteed by the JS object model). -/
def heapWF (h : Heap) : Prop :=
  ∀ o ∈ h, (o.props.map Prod.fst).Nodup

/-- An application semantics that preserves heap well-formedness. -/
def AppWF (app : ApplySem) : Prop :=
  ∀ h f t args h' o, heapWF h → app h f t args = some (h', o) → heapWF h'

/-! ## Concrete fixtures for the spec's test scenarios -/

/-- Spec §8.6: `A.action() -> "A"`, `B.action() -> $super(this).action() + "B"`. -/
def tblAB : FnTable := fun id =>
  match id with
  | 0 => some (.retStr "A")
  | 1 => some (.superThenAppend "action" "B")
  | _ => none

/-- Heap: `A.prototype` at 0, `B.prototype` at 1 (parent 0), a `B` instance at 2. -/
def hAB : Heap :=
  [⟨[("action", .fn 0)], none, none, none⟩,
   ⟨[("action", .fn 1)], some 0, none, none⟩,
   ⟨[], some 1, none, none⟩]

/-- Spec §8.7: three levels, each calling the ancestor's `action` first. -/
def tblABC : FnTable := fun id =>
  match id with
  | 0 => some (.retStr "A")
  | 1 => some (.superThenAppend "action" "B")
  | 2 => some (.superThenAppend "action" "C")
  | _ => none

def hABC : Heap :=
  [⟨[("action", .fn 0)], none, none, none⟩,
   ⟨[("action", .fn 1)], some 0, none, none⟩,
   ⟨[("action", .fn 2)], some 1, none, none⟩,
   ⟨[], some 2, none, none⟩]

/-- An ancestor override that throws: `A.m() -> throw "boom"`,
`B.m() -> "x"`. -/
def tblBoom : FnTable := fun id =>
  match id with
  | 0 => some (.throwStr "boom")
  | 1 => some (.retStr "x")
  | _ => none

def hBoom : Heap :=
  [⟨[("m", .fn 0)], none, none, none⟩,
   ⟨[("m", .fn 1)], some 0, none, none⟩,
   ⟨[], some 1, none, none⟩]

/-- Spec §8.4's base class `B(v)`: stores its first argument in field `v`;
its prototype lives at address 0. -/
def classBv : JClass :=
  ⟨0, fun h ntp args =>
    let al := alloc h ⟨[("v", args.headD .undef)], some ntp, none, none⟩
    some (al.1, .inst al.2)⟩

/-- Spec §8.4: `preConstructor(a,b){ return [a+b] }`,
`constructor(a,b){ this.sum = a; this.b = b }`. -/
def tblSum : FnTable := fun id =>
  match id with
  | 10 => some .argsSumList
  | 11 => some (.storeTwoFields "sum" "b")
  | _ => none

/-- Heap: `B.prototype` at 0, the class descriptor at 1. -/
def hSum : Heap :=
  [⟨[], none, none, none⟩,
   ⟨[("preConstructor", .fn 10), ("constructor", .fn 11)], none, none, none⟩]

/-- Spec §8.5 (courier isolation with a collision): `preConstructor` stages
`p = 1` and `q = 2` on the courier and passes the arguments through;
`constructor` overwrites `q` with 42. -/
def tblCourier : FnTable := fun id =>
  match id with
  | 20 => some (.writeTwoRetArgs "p" (.num 1) "q" (.num 2))
  | 21 => some (.setFieldConst "q" (.num 42))
  | _ => none

def hCourier : Heap :=
  [⟨[], none, none, none⟩,
   ⟨[("preConstructor", .fn 20), ("constructor", .fn 21)], none, none, none⟩]

/-- A bare instance for the `$super` caching scenario. -/
def hPlain : Heap := [⟨[], none, none, none⟩]

/-- A member map whose single entry inherits the `$IsPropertyDescriptor`
marker through its prototype instead of owning it: prototype at 0, member
map at 1, the entry object at 2 (with a `value` field, no own marker),
its prototype at 3 carrying the marker. -/
def hInherited : Heap :=
  [⟨[], none, none, none⟩,
   ⟨[("method", .obj 2)], none, none, none⟩,
   ⟨[("value", .num 9)], some 3, none, none⟩,
   ⟨[("$IsPropertyDescriptor", .bool true)], none, none, none⟩]

/-- The same layout with the marker as an own property of the entry. -/
def hOwnMarked : Heap :=
  [⟨[], none, none, none⟩,
   ⟨[("method", .obj 2)], none, none, none⟩,
   ⟨[("value", .num 9), ("$IsPropertyDescriptor", .bool true)], none, none, none⟩]

/-- A class over a given prototype whose construction function is never
consulted by the member-installation claims. -/
def classOn (protoA : Nat) : JClass :=
  ⟨protoA, fun h _ _ => some (h, .thrown .undef)⟩

/-- A descriptor-shaped heap for exercising `extend`'s member loop with an
inherited-only marker (same layout as `hInherited` plus nothing else;
`extend` allocates the derived prototype at 4). -/
def hInheritedX : Heap :=
  [⟨[], none, none, none⟩,
   ⟨[("method", .obj 2)], none, none, none⟩,
   ⟨[("value", .num 9)], some 3, none, none⟩,
   ⟨[("$IsPropertyDescriptor", .bool true)], none, none, none⟩]

/-- Spec §8.2 (enhancement visibility): a class prototype at 0 already
holding `x = 5`, a member map at 1 re-declaring `x = 6`, and an instance at
2 constructed before the enhancement. -/
def hEnh : Heap :=
  [⟨[("x", .num 5)], none, none, none⟩,
   ⟨[("x", .num 6)], none, none, none⟩,
   ⟨[], some 0, none, none⟩]

/-- An application semantics with no callables (for member-loop claims that
never invoke user code). -/
def noApp : ApplySem := fun _ _ _ _ => none

/-- Heap after `extend(B, {preConstructor, constructor})` in the §8.4
scenario: the derived prototype (parent 0) sits at address 2. -/
def hSumX : Heap := (extend (applyFn tblSum 10) hSum classBv 1).1

/-- Trace of §8.4: heap after the courier (3) is allocated and the
`preConstructor` has returned the array `[3 + 4]` (at 4). -/
def hSum2 : Heap := (hSumX ++ [emptyObj]) ++ [⟨[], none, none, some [.num 7]⟩]

/-- Trace of §8.4: heap after the base class stored `v = 7` on the new
instance (5). -/
def hSum3 : Heap := hSum2 ++ [⟨[("v", .num 7)], some 2, none, none⟩]

/-- Trace of §8.4: final heap, after the `constructor` stored `sum = 3` and
`b = 4` on the instance. -/
def hSum5 : Heap :=
  setProp (setProp (objAssign hSum3 5 3) 5 "sum" (.num 3)) 5 "b" (.num 4)

/-- Heap after `extend` in the §8.5 courier-collision scenario. -/
def hCourX : Heap := (extend (applyFn tblCourier 10) hCourier classBv 1).1

/-- Trace of §8.5: heap after the `preConstructor` staged `p = 1`, `q = 2` on
the courier (3) and returned the pass-through argument array (4). -/
def hCour2 : Heap :=
  setProp (setProp (hCourX ++ [emptyObj]) 3 "p" (.num 1)) 3 "q" (.num 2)
    ++ [⟨[], none, none, some [.num 5]⟩]

/-- Trace of §8.5: heap after the base class stored `v = 5` on the instance
(5). -/
def hCour3 : Heap := hCour2 ++ [⟨[("v", .num 5)], some 2, none, none⟩]

/-! ## Heap-primitive lemmas -/

theorem getObj_lt {h : Heap} {a : Nat} (ha : a < h.length) :
    getObj h a = some h[a] := by
  simp [getObj, List.getElem?_eq_getElem ha]

theorem getObj_some_lt {h : Heap} {a : Nat} {o : Obj} (ho : getObj h a = some o) :
    a < h.length := by
  by_contra hlt
  simp [getObj, List.getElem?_eq_none (Nat.le_of_not_lt hlt)] at ho

theorem setProp_length (h : Heap) (a : Nat) (k : String) (v : Value) :
    (setProp h a k v).length = h.length := by
  unfold setProp
  cases getObj h a <;> simp

theorem delProp_length (h : Heap) (a : Nat) (k : String) :
    (delProp h a k).length = h.length := by
  unfold delProp
  cases getObj h a <;> simp

theorem getObj_setProp_ne {h : Heap} {a a' : Nat} (hne : a' ≠ a)
    (k : String) (v : Value) :
    getObj (setProp h a k v) a' = getObj h a' := by
  unfold setProp
  cases ho : getObj h a with
  | none => rfl
  | some o => simp [getObj, List.getElem?_set_ne (fun hc => hne hc.symm)]

theorem getObj_delProp_ne {h : Heap} {a a' : Nat} (hne : a' ≠ a) (k : String) :
    getObj (delProp h a k) a' = getObj h a' := by
  unfold delProp
  cases ho : getObj h a with
  | none => rfl
  | some o => simp [getObj, List.getElem?_set_ne (fun hc => hne hc.symm)]

theorem getObj_setProp_self {h : Heap} {a : Nat} {o : Obj} (ho : getObj h a = some o)
    (k : String) (v : Value) :
    getObj (setProp h a k v) a = some ⟨setEntry o.props k v, o.proto, o.proxyTarget, o.arrVal⟩ := by
  have hlt := getObj_some_lt ho
  unfold setProp
  rw [ho]
  simp [getObj, List.getElem?_set_self, hlt]

theorem getObj_delProp_self {h : Heap} {a : Nat} {o : Obj} (ho : getObj h a = some o)
    (k : String) :
    getObj (delProp h a k) a = some ⟨delEntry o.props k, o.proto, o.proxyTarget, o.arrVal⟩ := by
  have hlt := getObj_some_lt ho
  unfold delProp
  rw [ho]
  simp [getObj, List.getElem?_set_self, hlt]

theorem lookupProp_setEntry_same (l : List (String × Value)) (k : String) (v : Value) :
    lookupProp (setEntry l k v) k = some v := by
  induction l with
  | nil => simp [setEntry, lookupProp]
  | cons p rest ih =>
    by_cases hk : p.1 = k
    · simp [setEntry, hk, lookupProp]
    · simp [setEntry, hk, lookupProp, ih]

theorem lookupProp_setEntry_ne (l : List (String × Value)) {k k' : String}
    (hne : k' ≠ k) (v : Value) :
    lookupProp (setEntry l k v) k' = lookupProp l k' := by
  induction l with
  | nil => simp [setEntry, lookupProp, Ne.symm hne]
  | cons p rest ih =>
    by_cases hk : p.1 = k
    · simp [setEntry, hk, lookupProp, Ne.symm hne, hne]
    · simp [setEntry, hk, lookupProp, ih]

theorem lookupProp_delEntry_same (l : List (String × Value)) (k : String) :
    lookupProp (delEntry l k) k = none := by
  induction l with
  | nil => simp [delEntry, lookupProp]
  | cons p rest ih =>
    by_cases hk : p.1 = k
    · simp [delEntry, hk, ih]
    · simp [delEntry, hk, lookupProp, ih]

theorem getOwn_setProp_same {h : Heap} {a : Nat} (ha : a < h.length)
    (k : String) (v : Value) :
    getOwn (setProp h a k v) a k = some v := by
  have ho : getObj h a = some h[a] := getObj_lt ha
  simp [getOwn, getObj_setProp_self ho, lookupProp_setEntry_same]

theorem getOwn_setProp_ne_addr {h : Heap} {a a' : Nat} (hne : a' ≠ a)
    (k k' : String) (v : Value) :
    getOwn (setProp h a k v) a' k' = getOwn h a' k' := by
  rw [getOwn, getObj_setProp_ne hne, getOwn]

theorem getOwn_setProp_ne_key {h : Heap} {a : Nat} {k k' : String}
    (hne : k' ≠ k) (a' : Nat) (v : Value) :
    getOwn (setProp h a k v) a' k' = getOwn h a' k' := by
  by_cases ha : a' = a
  · subst ha
    cases ho : getObj h a' with
    | none => simp [getOwn, setProp, ho]
    | some o =>
      simp [getOwn, getObj_setProp_self ho, lookupProp_setEntry_ne _ hne, ho]
  · exact getOwn_setProp_ne_addr ha _ _ _

theorem getOwn_delProp_same (h : Heap) (a : Nat) (k : String) :
    getOwn (delProp h a k) a k = none := by
  cases ho : getObj h a with
  | none => unfold getOwn delProp; rw [ho]; rw [ho]
  | some o => simp [getOwn, getObj_delProp_self ho, lookupProp_delEntry_same]

theorem protoOf_setProp (h : Heap) (a a' : Nat) (k : String) (v : Value) :
    protoOf (setProp h a k v) a' = protoOf h a' := by
  by_cases ha : a' = a
  · subst ha
    cases ho : getObj h a' with
    | none => unfold protoOf setProp; rw [ho]; rw [ho]
    | some o => simp [protoOf, getObj_setProp_self ho, ho]
  · simp [protoOf, getObj_setProp_ne ha]

theorem protoOf_delProp (h : Heap) (a a' : Nat) (k : String) :
    protoOf (delProp h a k) a' = protoOf h a' := by
  by_cases ha : a' = a
  · subst ha
    cases ho : getObj h a' with
    | none => unfold protoOf delProp; rw [ho]; rw [ho]
    | some o => simp [protoOf, getObj_delProp_self ho, ho]
  · simp [protoOf, getObj_delProp_ne ha]

/-! ## Key-uniqueness (well-formedness) lemmas -/

theorem mem_keys_setEntry (l : List (String × Value)) (k k'' : String) (v : Value) :
    k'' ∈ (setEntry l k v).map Prod.fst ↔ k'' ∈ l.map Prod.fst ∨ k'' = k := by
  induction l with
  | nil => simp [setEntry]
  | cons p rest ih =>
    obtain ⟨k', v'⟩ := p
    by_cases hk : k' = k
    · subst hk
      rw [setEntry, if_pos rfl]
      simp only [List.map_cons, List.mem_cons]
      tauto
    · rw [setEntry, if_neg hk]
      simp only [List.map_cons, List.mem_cons, ih]
      tauto

theorem nodup_keys_setEntry {l : List (String × Value)}
    (hnd : (l.map Prod.fst).Nodup) (k : String) (v : Value) :
    ((setEntry l k v).map Prod.fst).Nodup := by
  induction l with
  | nil => simp [setEntry]
  | cons p rest ih =>
    obtain ⟨k', v'⟩ := p
    simp only [List.map_cons, List.nodup_cons] at hnd
    by_cases hk : k' = k
    · subst hk
      rw [setEntry, if_pos rfl]
      simp only [List.map_cons, List.nodup_cons]
      exact hnd
    · rw [setEntry, if_neg hk]
      simp only [List.map_cons, List.nodup_cons, mem_keys_setEntry]
      refine ⟨?_, ih hnd.2⟩
      rintro (hc | hc)
      · exact hnd.1 hc
      · exact hk hc

theorem delEntry_sublist (l : List (String × Value)) (k : String) :
    (delEntry l k).Sublist l := by
  induction l with
  | nil => simp [delEntry]
  | cons p rest ih =>
    by_cases hk : p.1 = k
    · simpa [delEntry, hk] using ih.cons p
    · simpa [delEntry, hk] using ih.cons₂ p

theorem nodup_keys_delEntry {l : List (String × Value)}
    (hnd : (l.map Prod.fst).Nodup) (k : String) :
    ((delEntry l k).map Prod.fst).Nodup :=
  hnd.sublist ((delEntry_sublist l k).map Prod.fst)

theorem mem_of_getObj {h : Heap} {a : Nat} {o : Obj} (ho : getObj h a = some o) :
    o ∈ h := by
  have := getObj_some_lt ho
  rw [getObj_lt this, Option.some_inj] at ho
  exact ho ▸ List.getElem_mem this

theorem heapWF_setProp {h : Heap} (hwf : heapWF h) (a : Nat) (k : String) (v : Value) :
    heapWF (setProp h a k v) := by
  unfold setProp
  cases ho : getObj h a with
  | none => exact hwf
  | some o =>
    intro o' ho'
    rcases List.mem_or_eq_of_mem_set ho' with hmem | heq
    · exact hwf o' hmem
    · subst heq
      exact nodup_keys_setEntry (hwf o (mem_of_getObj ho)) k v

theorem heapWF_delProp {h : Heap} (hwf : heapWF h) (a : Nat) (k : String) :
    heapWF (delProp h a k) := by
  unfold delProp
  cases ho : getObj h a with
  | none => exact hwf
  | some o =>
    intro o' ho'
    rcases List.mem_or_eq_of_mem_set ho' with hmem | heq
    · exact hwf o' hmem
    · subst heq
      exact nodup_keys_delEntry (hwf o (mem_of_getObj ho)) k

theorem heapWF_append {h : Heap} (hwf : heapWF h) {o : Obj}
    (ho : (o.props.map Prod.fst).Nodup) : heapWF (h ++ [o]) := by
  intro o' ho'
  rcases List.mem_append.mp ho' with hmem | hmem
  · exact hwf o' hmem
  · simp only [List.mem_singleton] at hmem
    exact hmem ▸ ho

theorem markerCount_le_one {h : Heap} (hwf : heapWF h) (a : Nat) :
    markerCount h a ≤ 1 := by
  unfold markerCount
  cases ho : getObj h a with
  | none => exact Nat.zero_le 1
  | some o => exact (List.nodup_iff_count_le_one.mp (hwf o (mem_of_getObj ho))) _

/-! ## Well-formedness preservation through the dispatcher -/

theorem superWalk_WF {app : ApplySem} (happ : AppWF app) (t : Nat) (m : String)
    (args : List Value) (dbm : Value) :
    ∀ (fuel : Nat) (base : Value) (isS : Bool) (h h' : Heap) (o : Outcome),
      heapWF h → superWalk app t m args dbm h fuel base isS = some (h', o) →
      heapWF h' := by
  intro fuel
  induction fuel with
  | zero =>
    intro base isS h h' o _ hw
    simp [superWalk] at hw
  | succ fuel ih =>
    intro base isS h h' o hwf hw
    cases base with
    | obj a =>
      simp only [superWalk] at hw
      cases hg : getOwn h a m with
      | none =>
        simp only [hg] at hw
        exact ih _ _ _ _ _ hwf hw
      | some v =>
        simp only [hg] at hw
        by_cases hv : v = dbm
        · rw [if_pos hv] at hw
          exact ih _ _ _ _ _ hwf hw
        · rw [if_neg hv] at hw
          cases isS with
          | false =>
            simp only [Bool.false_eq_true, if_false] at hw
            exact ih _ _ _ _ _ hwf hw
          | true =>
            simp only [eq_self_iff_true, if_true] at hw
            cases happly : app (setProp h t "$BaseReference" (.obj a)) v (.obj t) args with
            | none => rw [happly] at hw; exact absurd hw (by simp)
            | some p =>
              obtain ⟨h2, o2⟩ := p
              have hwf2 : heapWF h2 :=
                happ _ _ _ _ _ _ (heapWF_setProp hwf t "$BaseReference" (.obj a)) happly
              rw [happly] at hw
              cases o2 with
              | ret r =>
                simp only [Option.some_inj] at hw
                obtain ⟨hh, _⟩ := Prod.mk.injEq .. ▸ hw
                exact hh ▸ heapWF_delProp hwf2 t "$BaseReference"
              | thrown e =>
                simp only [Option.some_inj] at hw
                obtain ⟨hh, _⟩ := Prod.mk.injEq .. ▸ hw
                exact hh ▸ hwf2
    | undef =>
      simp only [superWalk, Option.some_inj] at hw
      obtain ⟨hh, _⟩ := Prod.mk.injEq .. ▸ hw
      exact hh ▸ hwf
    | bool b =>
      simp only [superWalk, Option.some_inj] at hw
      obtain ⟨hh, _⟩ := Prod.mk.injEq .. ▸ hw
      exact hh ▸ hwf
    | num n =>
      simp only [superWalk, Option.some_inj] at hw
      obtain ⟨hh, _⟩ := Prod.mk.injEq .. ▸ hw
      exact hh ▸ hwf
    | str s =>
      simp only [superWalk, Option.some_inj] at hw
      obtain ⟨hh, _⟩ := Prod.mk.injEq .. ▸ hw
      exact hh ▸ hwf
    | fn id =>
      simp only [superWalk, Option.some_inj] at hw
      obtain ⟨hh, _⟩ := Prod.mk.injEq .. ▸ hw
      exact hh ▸ hwf
    | superCall tt mm =>
      simp only [superWalk, Option.some_inj] at hw
      obtain ⟨hh, _⟩ := Prod.mk.injEq .. ▸ hw
      exact hh ▸ hwf

theorem callSuper_WF {app : ApplySem} (happ : AppWF app) {h h' : Heap} {t : Nat}
    {m : String} {args : List Value} {o : Outcome} (hwf : heapWF h)
    (hc : callSuper app h t m args = some (h', o)) : heapWF h' :=
  superWalk_WF happ t m args _ _ _ _ h h' o hwf hc

theorem runBody_WF {app : ApplySem} (happ : AppWF app) {h h' : Heap}
    {thisV : Value} {b : Body} {args : List Value} {o : Outcome}
    (hwf : heapWF h) (hr : runBody app h thisV b args = some (h', o)) :
    heapWF h' := by
  cases b with
  | retStr s =>
    simp only [runBody, Option.some_inj] at hr
    exact (Prod.mk.injEq .. ▸ hr).1 ▸ hwf
  | throwStr s =>
    simp only [runBody, Option.some_inj] at hr
    exact (Prod.mk.injEq .. ▸ hr).1 ▸ hwf
  | superThenAppend m s =>
    cases thisV with
    | obj a =>
      simp only [runBody] at hr
      cases hc : callSuper app h a m [] with
      | none => rw [hc] at hr; exact absurd hr (by simp)
      | some p =>
        obtain ⟨h1, o1⟩ := p
        have hwf1 := callSuper_WF happ hwf hc
        rw [hc] at hr
        cases o1 with
        | ret r =>
          simp only [Option.some_inj] at hr
          exact (Prod.mk.injEq .. ▸ hr).1 ▸ hwf1
        | thrown e =>
          simp only [Option.some_inj] at hr
          exact (Prod.mk.injEq .. ▸ hr).1 ▸ hwf1
    | undef => simp only [runBody, Option.some_inj] at hr; exact (Prod.mk.injEq .. ▸ hr).1 ▸ hwf
    | bool x => simp only [runBody, Option.some_inj] at hr; exact (Prod.mk.injEq .. ▸ hr).1 ▸ hwf
    | num x => simp only [runBody, Option.some_inj] at hr; exact (Prod.mk.injEq .. ▸ hr).1 ▸ hwf
    | str x => simp only [runBody, Option.some_inj] at hr; exact (Prod.mk.injEq .. ▸ hr).1 ▸ hwf
    | fn x => simp only [runBody, Option.some_inj] at hr; exact (Prod.mk.injEq .. ▸ hr).1 ▸ hwf
    | superCall x y => simp only [runBody, Option.some_inj] at hr; exact (Prod.mk.injEq .. ▸ hr).1 ▸ hwf
  | argsSumList =>
    simp only [runBody, allocArray, alloc, Option.some_inj] at hr
    refine (Prod.mk.injEq .. ▸ hr).1 ▸ heapWF_append hwf ?_
    simp
  | storeTwoFields k1 k2 =>
    cases thisV with
    | obj a =>
      simp only [runBody, Option.some_inj] at hr
      exact (Prod.mk.injEq .. ▸ hr).1 ▸
        heapWF_setProp (heapWF_setProp hwf a k1 _) a k2 _
    | undef => simp only [runBody, Option.some_inj] at hr; exact (Prod.mk.injEq .. ▸ hr).1 ▸ hwf
    | bool x => simp only [runBody, Option.some_inj] at hr; exact (Prod.mk.injEq .. ▸ hr).1 ▸ hwf
    | num x => simp only [runBody, Option.some_inj] at hr; exact (Prod.mk.injEq .. ▸ hr).1 ▸ hwf
    | str x => simp only [runBody, Option.some_inj] at hr; exact (Prod.mk.injEq .. ▸ hr).1 ▸ hwf
    | fn x => simp only [runBody, Option.some_inj] at hr; exact (Prod.mk.injEq .. ▸ hr).1 ▸ hwf
    | superCall x y => simp only [runBody, Option.some_inj] at hr; exact (Prod.mk.injEq .. ▸ hr).1 ▸ hwf
  | writeTwoRetArgs k1 v1 k2 v2 =>
    cases thisV with
    | obj a =>
      simp only [runBody, allocArray, alloc, Option.some_inj] at hr
      refine (Prod.mk.injEq .. ▸ hr).1 ▸ heapWF_append
        (heapWF_setProp (heapWF_setProp hwf a k1 v1) a k2 v2) ?_
      simp
    | undef => simp only [runBody, Option.some_inj] at hr; exact (Prod.mk.injEq .. ▸ hr).1 ▸ hwf
    | bool x => simp only [runBody, Option.some_inj] at hr; exact (Prod.mk.injEq .. ▸ hr).1 ▸ hwf
    | num x => simp only [runBody, Option.some_inj] at hr; exact (Prod.mk.injEq .. ▸ hr).1 ▸ hwf
    | str x => simp only [runBody, Option.some_inj] at hr; exact (Prod.mk.injEq .. ▸ hr).1 ▸ hwf
    | fn x => simp only [runBody, Option.some_inj] at hr; exact (Prod.mk.injEq .. ▸ hr).1 ▸ hwf
    | superCall x y => simp only [runBody, Option.some_inj] at hr; exact (Prod.mk.injEq .. ▸ hr).1 ▸ hwf
  | setFieldConst k v =>
    cases thisV with
    | obj a =>
      simp only [runBody, Option.some_inj] at hr
      exact (Prod.mk.injEq .. ▸ hr).1 ▸ heapWF_setProp hwf a k v
    | undef => simp only [runBody, Option.some_inj] at hr; exact (Prod.mk.injEq .. ▸ hr).1 ▸ hwf
    | bool x => simp only [runBody, Option.some_inj] at hr; exact (Prod.mk.injEq .. ▸ hr).1 ▸ hwf
    | num x => simp only [runBody, Option.some_inj] at hr; exact (Prod.mk.injEq .. ▸ hr).1 ▸ hwf
    | str x => simp only [runBody, Option.some_inj] at hr; exact (Prod.mk.injEq .. ▸ hr).1 ▸ hwf
    | fn x => simp only [runBody, Option.some_inj] at hr; exact (Prod.mk.injEq .. ▸ hr).1 ▸ hwf
    | superCall x y => simp only [runBody, Option.some_inj] at hr; exact (Prod.mk.injEq .. ▸ hr).1 ▸ hwf

theorem applyFn_WF (tbl : FnTable) : ∀ fuel : Nat, AppWF (applyFn tbl fuel) := by
  intro fuel
  induction fuel with
  | zero =>
    intro h f t args h' o _ happ
    simp [applyFn] at happ
  | succ fuel ih =>
    intro h f t args h' o hwf happ
    cases f with
    | fn id =>
      simp only [applyFn] at happ
      cases htbl : tbl id with
      | some b =>
        rw [htbl] at happ
        exact runBody_WF ih hwf happ
      | none =>
        rw [htbl] at happ
        simp only [Option.some_inj] at happ
        exact (Prod.mk.injEq .. ▸ happ).1 ▸ hwf
    | superCall tt mm =>
      simp only [applyFn] at happ
      exact callSuper_WF ih hwf happ
    | undef => simp only [applyFn, Option.some_inj] at happ; exact (Prod.mk.injEq .. ▸ happ).1 ▸ hwf
    | bool x => simp only [applyFn, Option.some_inj] at happ; exact (Prod.mk.injEq .. ▸ happ).1 ▸ hwf
    | num x => simp only [applyFn, Option.some_inj] at happ; exact (Prod.mk.injEq .. ▸ happ).1 ▸ hwf
    | str x => simp only [applyFn, Option.some_inj] at happ; exact (Prod.mk.injEq .. ▸ happ).1 ▸ hwf
    | obj x => simp only [applyFn, Option.some_inj] at happ; exact (Prod.mk.injEq .. ▸ happ).1 ▸ hwf

/-! ## Relating the walk to its pure resolution -/

theorem superWalk_of_resolve_none (app : ApplySem) (t : Nat) (m : String)
    (args : List Value) (dbm : Value) (h : Heap) :
    ∀ (fuel : Nat) (base : Value) (isS : Bool),
      resolveSuper h m dbm fuel base isS = some none →
      superWalk app t m args dbm h fuel base isS = some (h, .ret .undef) := by
  intro fuel
  induction fuel with
  | zero =>
    intro base isS hres
    simp [resolveSuper] at hres
  | succ fuel ih =>
    intro base isS hres
    cases base with
    | obj a =>
      simp only [resolveSuper] at hres
      simp only [superWalk]
      cases hg : getOwn h a m with
      | none =>
        simp only [hg] at hres ⊢
        exact ih _ _ hres
      | some v =>
        simp only [hg] at hres ⊢
        by_cases hv : v = dbm
        · rw [if_pos hv] at hres ⊢
          exact ih _ _ hres
        · rw [if_neg hv] at hres ⊢
          cases isS with
          | false =>
            simp only [Bool.false_eq_true, if_false] at hres ⊢
            exact ih _ _ hres
          | true => simp at hres
    | undef => rfl
    | bool b => rfl
    | num n => rfl
    | str s => rfl
    | fn id => rfl
    | superCall tt mm => rfl

theorem superWalk_of_resolve_found (app : ApplySem) (t : Nat) (m : String)
    (args : List Value) (dbm : Value) (h : Heap) :
    ∀ (fuel : Nat) (base : Value) (isS : Bool) (a : Nat) (v : Value),
      resolveSuper h m dbm fuel base isS = some (some (a, v)) →
      superWalk app t m args dbm h fuel base isS =
        match app (setProp h t "$BaseReference" (.obj a)) v (.obj t) args with
        | some (h2, .ret r) => some (delProp h2 t "$BaseReference", .ret r)
        | some (h2, .thrown e) => some (h2, .thrown e)
        | none => none := by
  intro fuel
  induction fuel with
  | zero =>
    intro base isS a v hres
    simp [resolveSuper] at hres
  | succ fuel ih =>
    intro base isS a v hres
    cases base with
    | obj a' =>
      simp only [resolveSuper] at hres
      simp only [superWalk]
      cases hg : getOwn h a' m with
      | none =>
        simp only [hg] at hres ⊢
        exact ih _ _ _ _ hres
      | some v' =>
        simp only [hg] at hres ⊢
        by_cases hv : v' = dbm
        · rw [if_pos hv] at hres ⊢
          exact ih _ _ _ _ hres
        · rw [if_neg hv] at hres ⊢
          cases isS with
          | false =>
            simp only [Bool.false_eq_true, if_false] at hres ⊢
            exact ih _ _ _ _ hres
          | true =>
            simp only [eq_self_iff_true, if_true, Option.some_inj, Option.some.injEq] at hres
            obtain ⟨ha, hvv⟩ := Prod.mk.injEq .. ▸ hres
            subst ha
            subst hvv
            rfl
    | undef => simp [resolveSuper] at hres
    | bool b => simp [resolveSuper] at hres
    | num n => simp [resolveSuper] at hres
    | str s => simp [resolveSuper] at hres
    | fn id => simp [resolveSuper] at hres
    | superCall tt mm => simp [resolveSuper] at hres

/-! ## Chain-lookup and append lemmas -/

theorem chainLookup_own {h : Heap} {a : Nat} {k : String} {v : Value}
    (hg : getOwn h a k = some v) :
    ∀ {fuel : Nat}, 0 < fuel → chainLookup h k fuel a = some v := by
  intro fuel hf
  cases fuel with
  | zero => exact absurd hf (by simp)
  | succ fuel =>
    cases ho : getObj h a with
    | none => simp [getOwn, ho] at hg
    | some o =>
      simp only [getOwn, ho] at hg
      simp only [chainLookup, ho, hg]

theorem chainGet_of_getOwn {h : Heap} {a : Nat} {k : String} {v : Value}
    (hg : getOwn h a k = some v) : chainGet h a k = some v :=
  chainLookup_own hg (Nat.succ_pos _)

theorem getObj_append_lt {h : Heap} {a : Nat} (ha : a < h.length) (l : Heap) :
    getObj (h ++ l) a = getObj h a := by
  simp [getObj, List.getElem?_append, ha]

theorem getOwn_append_lt {h : Heap} {a : Nat} (ha : a < h.length) (l : Heap)
    (k : String) : getOwn (h ++ l) a k = getOwn h a k := by
  unfold getOwn
  rw [getObj_append_lt ha]

theorem ownKeys_append_lt {h : Heap} {a : Nat} (ha : a < h.length) (l : Heap) :
    ownKeys (h ++ l) a = ownKeys h a := by
  unfold ownKeys
  rw [getObj_append_lt ha]

theorem getObj_concat_length (h : Heap) (o : Obj) :
    getObj (h ++ [o]) h.length = some o := by
  simp [getObj]

/-! ## Member-installation lemmas -/

theorem isMarked_not_obj {h : Heap} {v : Value} (hv : ∀ d, v ≠ .obj d) :
    isMarkedPropertyDescriptor h v = false := by
  cases v with
  | obj d => exact absurd rfl (hv d)
  | undef => rfl
  | bool b => rfl
  | num n => rfl
  | str s => rfl
  | fn id => rfl
  | superCall t m => rfl

theorem getObj_applyMember_ne {h : Heap} {a pA : Nat} (ha : a ≠ pA)
    (k : String) (v : Value) :
    getObj (applyMember h pA k v) a = getObj h a := by
  unfold applyMember
  by_cases hm : isMarkedPropertyDescriptor h v = true
  · rw [if_pos hm]
    cases v with
    | obj d => exact getObj_setProp_ne ha _ _
    | undef => rfl
    | bool b => rfl
    | num n => rfl
    | str s => rfl
    | fn id => rfl
    | superCall t m => rfl
  · rw [if_neg hm]
    exact getObj_setProp_ne ha _ _

theorem length_applyMember (h : Heap) (pA : Nat) (k : String) (v : Value) :
    (applyMember h pA k v).length = h.length := by
  unfold applyMember
  by_cases hm : isMarkedPropertyDescriptor h v = true
  · rw [if_pos hm]
    cases v with
    | obj d => exact setProp_length _ _ _ _
    | undef => rfl
    | bool b => rfl
    | num n => rfl
    | str s => rfl
    | fn id => rfl
    | superCall t m => rfl
  · rw [if_neg hm]
    exact setProp_length _ _ _ _

theorem getOwn_applyMember_ne_key {h : Heap} {pA : Nat} {k k' : String}
    (hne : k' ≠ k) (v : Value) (a' : Nat) :
    getOwn (applyMember h pA k v) a' k' = getOwn h a' k' := by
  unfold applyMember
  by_cases hm : isMarkedPropertyDescriptor h v = true
  · rw [if_pos hm]
    cases v with
    | obj d => exact getOwn_setProp_ne_key hne _ _
    | undef => rfl
    | bool b => rfl
    | num n => rfl
    | str s => rfl
    | fn id => rfl
    | superCall t m => rfl
  · rw [if_neg hm]
    exact getOwn_setProp_ne_key hne _ _

theorem getOwn_applyMember_same {h : Heap} {pA : Nat} (hlt : pA < h.length)
    (k : String) (v : Value) :
    getOwn (applyMember h pA k v) pA k = some (installVal h v) := by
  unfold applyMember installVal
  by_cases hm : isMarkedPropertyDescriptor h v = true
  · rw [if_pos hm, if_pos hm]
    cases v with
    | obj d => exact getOwn_setProp_same hlt _ _
    | undef => exact absurd hm (by simp [isMarkedPropertyDescriptor])
    | bool b => exact absurd hm (by simp [isMarkedPropertyDescriptor])
    | num n => exact absurd hm (by simp [isMarkedPropertyDescriptor])
    | str s => exact absurd hm (by simp [isMarkedPropertyDescriptor])
    | fn id => exact absurd hm (by simp [isMarkedPropertyDescriptor])
    | superCall t m => exact absurd hm (by simp [isMarkedPropertyDescriptor])
  · rw [if_neg hm, if_neg hm]
    exact getOwn_setProp_same hlt _ _

theorem protoOf_applyMember (h : Heap) (pA : Nat) (k : String) (v : Value)
    (a : Nat) : protoOf (applyMember h pA k v) a = protoOf h a := by
  unfold applyMember
  by_cases hm : isMarkedPropertyDescriptor h v = true
  · rw [if_pos hm]
    cases v with
    | obj d => exact protoOf_setProp _ _ _ _ _
    | undef => rfl
    | bool b => rfl
    | num n => rfl
    | str s => rfl
    | fn id => rfl
    | superCall t m => rfl
  · rw [if_neg hm]
    exact protoOf_setProp _ _ _ _ _

theorem mem_map_fst_of_lookupProp {l : List (String × Value)} {k : String}
    {v : Value} (hg : lookupProp l k = some v) : k ∈ l.map Prod.fst := by
  induction l with
  | nil => simp [lookupProp] at hg
  | cons p rest ih =>
    obtain ⟨k', v'⟩ := p
    by_cases hk : k' = k
    · simp [hk]
    · rw [lookupProp, if_neg hk] at hg
      simp only [List.map_cons, List.mem_cons]
      exact Or.inr (ih hg)

theorem mem_ownKeys_of_getOwn {h : Heap} {a : Nat} {k : String} {v : Value}
    (hg : getOwn h a k = some v) : k ∈ ownKeys h a := by
  cases ho : getObj h a with
  | none => simp [getOwn, ho] at hg
  | some o =>
    simp only [getOwn, ho] at hg
    unfold ownKeys
    rw [ho]
    exact mem_map_fst_of_lookupProp hg

/-! ## Fold lemmas for the member-application loops -/

theorem foldl_memberStep_getObj_ne (pA mA : Nat) (keys : List String) :
    ∀ (h : Heap) {a : Nat}, a ≠ pA →
      getObj (keys.foldl (memberStep pA mA) h) a = getObj h a := by
  induction keys with
  | nil => intro h a _; rfl
  | cons k rest ih =>
    intro h a ha
    rw [List.foldl_cons, ih _ ha]
    exact getObj_applyMember_ne ha _ _

theorem foldl_memberStep_length (pA mA : Nat) (keys : List String) :
    ∀ (h : Heap), (keys.foldl (memberStep pA mA) h).length = h.length := by
  induction keys with
  | nil => intro h; rfl
  | cons k rest ih =>
    intro h
    rw [List.foldl_cons, ih, memberStep, length_applyMember]

theorem foldl_memberStep_getOwn_not_mem (pA mA : Nat) (keys : List String) :
    ∀ (h : Heap) {k : String}, k ∉ keys → ∀ (a' : Nat),
      getOwn (keys.foldl (memberStep pA mA) h) a' k = getOwn h a' k := by
  induction keys with
  | nil => intro h k _ a'; rfl
  | cons k0 rest ih =>
    intro h k hk a'
    have hne : k ≠ k0 := fun hc => hk (hc ▸ List.mem_cons_self k0 rest)
    have hrest : k ∉ rest := fun hc => hk (List.mem_cons_of_mem k0 hc)
    rw [List.foldl_cons, ih _ hrest, memberStep, getOwn_applyMember_ne_key hne]

theorem installVal_congr {h h' : Heap} {v : Value}
    (hobj : ∀ d, v = .obj d → getObj h' d = getObj h d) :
    installVal h' v = installVal h v := by
  cases v with
  | obj d =>
    have hg : getOwn h' d "$IsPropertyDescriptor" = getOwn h d "$IsPropertyDescriptor" := by
      unfold getOwn; rw [hobj d rfl]
    have hv : getOwn h' d "value" = getOwn h d "value" := by
      unfold getOwn; rw [hobj d rfl]
    simp only [installVal, isMarkedPropertyDescriptor]
    rw [hg, hv]
  | undef => rfl
  | bool b => rfl
  | num n => rfl
  | str s => rfl
  | fn id => rfl
  | superCall t m => rfl

theorem foldl_memberStep_install (pA mA : Nat) (hmA : mA ≠ pA) :
    ∀ (keys : List String) (h : Heap), keys.Nodup → pA < h.length →
      (∀ k' v d, getOwn h mA k' = some v → v = .obj d → d ≠ pA) →
      ∀ {k : String} {v : Value}, k ∈ keys → getOwn h mA k = some v →
        getOwn (keys.foldl (memberStep pA mA) h) pA k = some (installVal h v) := by
  intro keys
  induction keys with
  | nil =>
    intro h _ _ _ k v hk
    exact absurd hk (List.not_mem_nil k)
  | cons k0 rest ih =>
    intro h hnd hlt hstab k v hk hv
    have hnd' := List.nodup_cons.mp hnd
    rw [List.foldl_cons]
    rcases List.mem_cons.mp hk with hk0 | hkrest
    · subst hk0
      rw [foldl_memberStep_getOwn_not_mem pA mA rest _ hnd'.1]
      unfold memberStep
      rw [hv]
      exact getOwn_applyMember_same hlt _ _
    · -- the step for k0 only mutates the prototype object
      have hobjs : ∀ {a : Nat}, a ≠ pA →
          getObj (memberStep pA mA h k0) a = getObj h a := by
        intro a ha
        exact getObj_applyMember_ne ha _ _
      have hgmA : ∀ k', getOwn (memberStep pA mA h k0) mA k' = getOwn h mA k' := by
        intro k'
        unfold getOwn
        rw [hobjs hmA]
      have hlen : (memberStep pA mA h k0).length = h.length := by
        rw [memberStep, length_applyMember]
      have hstab' : ∀ k' v' d, getOwn (memberStep pA mA h k0) mA k' = some v' →
          v' = .obj d → d ≠ pA := by
        intro k' v' d hgv hd
        exact hstab k' v' d (by rw [hgmA] at hgv; exact hgv) hd
      have := ih (memberStep pA mA h k0) hnd'.2 (hlen ▸ hlt) hstab' hkrest
        ((hgmA k) ▸ hv)
      rw [this]
      congr 1
      refine installVal_congr ?_
      intro d hd
      refine hobjs ?_
      exact hstab k v d hv hd

/-! ## `Object.assign` lemmas -/

theorem foldl_setProp_length (dst : Nat) :
    ∀ (l : List (String × Value)) (h : Heap),
      (l.foldl (fun h' p => setProp h' dst p.1 p.2) h).length = h.length := by
  intro l
  induction l with
  | nil => intro h; rfl
  | cons p rest ih =>
    intro h
    rw [List.foldl_cons, ih, setProp_length]

theorem foldl_setProp_getOwn_not_mem (dst : Nat) :
    ∀ (l : List (String × Value)) (h : Heap) {k : String}, k ∉ l.map Prod.fst →
      getOwn (l.foldl (fun h' p => setProp h' dst p.1 p.2) h) dst k = getOwn h dst k := by
  intro l
  induction l with
  | nil => intro h k _; rfl
  | cons p rest ih =>
    intro h k hk
    simp only [List.map_cons, List.mem_cons] at hk
    push_neg at hk
    rw [List.foldl_cons, ih _ hk.2, getOwn_setProp_ne_key hk.1]

theorem foldl_setProp_copies (dst : Nat) :
    ∀ (l : List (String × Value)) (h : Heap), (l.map Prod.fst).Nodup →
      dst < h.length → ∀ kv ∈ l,
      getOwn (l.foldl (fun h' p => setProp h' dst p.1 p.2) h) dst kv.1 = some kv.2 := by
  intro l
  induction l with
  | nil =>
    intro h _ _ kv hkv
    exact absurd hkv (List.not_mem_nil kv)
  | cons p rest ih =>
    intro h hnd hlt kv hkv
    have hnd' := List.nodup_cons.mp (List.map_cons Prod.fst p rest ▸ hnd)
    rw [List.foldl_cons]
    rcases List.mem_cons.mp hkv with hp | hrest
    · subst hp
      rw [foldl_setProp_getOwn_not_mem dst rest _ hnd'.1]
      exact getOwn_setProp_same hlt _ _
    · exact ih _ hnd'.2 (setProp_length h dst p.1 p.2 ▸ hlt) kv hrest

theorem objAssign_copies {h : Heap} {src : Nat} {co : Obj}
    (hsrc : getObj h src = some co) (hnd : (co.props.map Prod.fst).Nodup)
    {dst : Nat} (hdst : dst < h.length) :
    ∀ kv ∈ co.props, getOwn (objAssign h dst src) dst kv.1 = some kv.2 := by
  intro kv hkv
  unfold objAssign
  rw [hsrc]
  exact foldl_setProp_copies dst co.props h hnd hdst kv hkv

/-! ## The member loop of `extend` preserves prototype links -/

theorem protoOf_extendFold (pA dA : Nat) (keys : List String) :
    ∀ (h : Heap) (a : Nat),
      protoOf (keys.foldl (fun h' k => if k = "preConstructor" then h'
        else if k = "constructor" then h' else memberStep pA dA h' k) h) a
      = protoOf h a := by
  induction keys with
  | nil => intro h a; rfl
  | cons k rest ih =>
    intro h a
    rw [List.foldl_cons, ih]
    by_cases h1 : k = "preConstructor"
    · rw [if_pos h1]
    · rw [if_neg h1]
      by_cases h2 : k = "constructor"
      · rw [if_pos h2]
      · rw [if_neg h2, memberStep, protoOf_applyMember]

/-! ## Claim theorems -/

/-- C6: for every instance, method name and arguments, if walking the
prototype chain from the search start point (`baseOf`) to the end finds no
ancestor override satisfying the "found and isSuper" dispatch condition —
`resolveSuper` answering `some none`, which covers the case where no method
of that name exists anywhere on the chain — then `callSuper` returns
`undefined`, leaves the heap untouched, and raises no failure, for any
application semantics whatsoever. -/
theorem c6_absent_ancestor_yields_undefined (app : ApplySem) (h : Heap)
    (t : Nat) (m : String) (args : List Value)
    (hres : resolveSuper h m (dbmOf h (baseOf h t) m) (h.length + 1)
      (baseOf h t) false = some none) :
    callSuper app h t m args = some (h, .ret .undef) :=
  superWalk_of_resolve_none app t m args _ h _ _ _ hres

/-- Witness for C6: spec §8.8 — `callSuper(instance, "noSuchMethod")` on a
`B`-chain instance returns `undefined` without raising. -/
theorem c6_absent_ancestor_yields_undefined_witness :
    resolveSuper hAB "noSuchMethod"
      (dbmOf hAB (baseOf hAB 2) "noSuchMethod") (hAB.length + 1)
      (baseOf hAB 2) false = some none
    ∧ callSuper (applyFn tblAB 9) hAB 2 "noSuchMethod" []
      = some (hAB, .ret .undef) :=
  ⟨by decide,
   c6_absent_ancestor_yields_undefined (applyFn tblAB 9) hAB 2 "noSuchMethod" []
     (by decide)⟩

/-- C1 (code bug evidence): on the two-level chain `hBoom` whose ancestor
override of `m` throws `"boom"`, `callSuper` propagates the failure
unchanged, but the resulting heap still carries the `$BaseReference`
marker on the instance: the source deletes the marker only after a normal
return (`src/index.js` lines 29–34 have no try/finally), so the claim's
"cleared before the failure propagates" does not hold on the throw path. -/
theorem c1_thrown_failure_leaves_marker :
    callSuper (applyFn tblBoom 9) hBoom 2 "m" []
      = some (setProp hBoom 2 "$BaseReference" (.obj 0), .thrown (.str "boom"))
    ∧ getOwn (setProp hBoom 2 "$BaseReference" (.obj 0)) 2 "$BaseReference"
      = some (.obj 0) := by
  exact ⟨by decide, by decide⟩

/-- C4: whenever the pure resolution of the walk (`resolveSuper`, starting
at `baseOf h t` — the current override level — and requiring a definition
distinct from `directBaseMethod` strictly above it) designates level `a`
with function `v`, `callSuper` invokes exactly that function, with
receiver = the original instance `t` (not the chain level `a` where it was
found) and the given arguments, after planting the dispatch marker at `a`,
and returns that invocation's result; and in particular, on the concrete
`A`/`B` chain of spec §8.6, invoking `action` on the `B`-chain instance
returns `"AB"`. -/
theorem c4_callSuper_invokes_nearest_override :
    (∀ (app : ApplySem) (h : Heap) (t : Nat) (m : String) (args : List Value)
       (a : Nat) (v : Value),
      resolveSuper h m (dbmOf h (baseOf h t) m) (h.length + 1) (baseOf h t) false
        = some (some (a, v)) →
      callSuper app h t m args =
        match app (setProp h t "$BaseReference" (.obj a)) v (.obj t) args with
        | some (h2, .ret r) => some (delProp h2 t "$BaseReference", .ret r)
        | some (h2, .thrown e) => some (h2, .thrown e)
        | none => none)
    ∧ applyFn tblAB 10 hAB (.fn 1) (.obj 2) [] = some (hAB, .ret (.str "AB")) := by
  constructor
  · intro app h t m args a v hres
    exact superWalk_of_resolve_found app t m args _ h _ _ _ a v hres
  · decide

/-- Witness for C4: on the `A`/`B` chain, the resolution finds the `A`-level
override (`fn 0`) above the current `B`-level one, and `callSuper` equals
the dispatch of that function with receiver = the instance. -/
theorem c4_callSuper_invokes_nearest_override_witness :
    resolveSuper hAB "action" (dbmOf hAB (baseOf hAB 2) "action")
      (hAB.length + 1) (baseOf hAB 2) false = some (some (0, .fn 0))
    ∧ callSuper (applyFn tblAB 9) hAB 2 "action" [] =
        match applyFn tblAB 9 (setProp hAB 2 "$BaseReference" (.obj 0))
          (.fn 0) (.obj 2) [] with
        | some (h2, .ret r) => some (delProp h2 2 "$BaseReference", .ret r)
        | some (h2, .thrown e) => some (h2, .thrown e)
        | none => none :=
  ⟨by decide,
   c4_callSuper_invokes_nearest_override.1 (applyFn tblAB 9) hAB 2 "action" []
     0 (.fn 0) (by decide)⟩

/-- C5: the dispatcher preserves heap well-formedness, so at every point
observable between operations an instance carries at most one
`$BaseReference` binding (the marker is overwritten, not duplicated, by
re-entrant dispatches); and on the three-level chain of spec §8.7 — each
override calling the ancestor's `action` first — dispatch on a `C` instance
returns `"ABC"` (base-to-derived concatenation), the final heap is exactly
the initial one, and no dispatch marker remains on the instance. -/
theorem c5_single_marker_invariant :
    (∀ (tbl : FnTable) (fuel : Nat) (h h' : Heap) (f thisV : Value)
       (args : List Value) (o : Outcome),
      heapWF h → applyFn tbl fuel h f thisV args = some (h', o) →
      heapWF h' ∧ ∀ a, markerCount h' a ≤ 1)
    ∧ applyFn tblABC 10 hABC (.fn 2) (.obj 3) [] = some (hABC, .ret (.str "ABC"))
    ∧ getOwn hABC 3 "$BaseReference" = none := by
  refine ⟨?_, by decide, by decide⟩
  intro tbl fuel h h' f thisV args o hwf happ
  have hwf' := applyFn_WF tbl fuel _ _ _ _ _ _ hwf happ
  exact ⟨hwf', fun a => markerCount_le_one hwf' a⟩

/-- Witness for C5: the invariant applied to the concrete `A` → `B` → `C`
dispatch: the initial heap is well-formed, and after the triply-nested
dispatch completes the instance carries at most one (in fact zero)
markers. -/
theorem c5_single_marker_invariant_witness :
    heapWF hABC
    ∧ (heapWF hABC ∧ ∀ a, markerCount hABC a ≤ 1) := by
  constructor
  · unfold heapWF; decide
  · exact c5_single_marker_invariant.1 tblABC 10 hABC hABC (.fn 2) (.obj 3) []
      (.ret (.str "ABC")) (by unfold heapWF; decide) (by decide)

/-- C8: for an instance `x` with no cached wrapper, `$super(x)` allocates a
fresh `Proxy` (the next heap address), caches it on `x` under
`$SuperProxy`, and a second `$super(x)` changes nothing and returns the
very same wrapper reference; accessing any method name `m` on the wrapper
and invoking the resulting callable with arguments performs exactly the
`callSuper(x, m, ...args)` dispatch. -/
theorem c8_super_proxy_cached_per_instance :
    ∀ (h : Heap) (x : Nat), x < h.length → chainGet h x "$SuperProxy" = none →
      (dollarSuper h x).2 = .obj h.length
      ∧ getOwn (dollarSuper h x).1 x "$SuperProxy" = some (.obj h.length)
      ∧ dollarSuper (dollarSuper h x).1 x = ((dollarSuper h x).1, (dollarSuper h x).2)
      ∧ (∀ (m : String) (tbl : FnTable) (fuel : Nat) (h' : Heap)
          (thisV : Value) (args : List Value),
          applyFn tbl (fuel + 1) h' (proxyGet (dollarSuper h x).1 h.length m)
            thisV args
          = callSuper (applyFn tbl fuel) h' x m args) := by
  intro h x hx hnone
  have hd : dollarSuper h x
      = (setProp (h ++ [⟨[], none, some x, none⟩]) x "$SuperProxy" (.obj h.length),
         .obj h.length) := by
    simp [dollarSuper, hnone, alloc]
  have hxlt : x < (h ++ [(⟨[], none, some x, none⟩ : Obj)]).length := by
    simp
    omega
  have hown : getOwn (dollarSuper h x).1 x "$SuperProxy" = some (.obj h.length) := by
    rw [hd]
    exact getOwn_setProp_same hxlt _ _
  refine ⟨by rw [hd], hown, ?_, ?_⟩
  · have hown' : getOwn (setProp (h ++ [⟨[], none, some x, none⟩]) x
        "$SuperProxy" (.obj h.length)) x "$SuperProxy" = some (.obj h.length) := by
      rw [hd] at hown
      exact hown
    rw [hd]
    simp [dollarSuper, chainGet_of_getOwn hown']
  · intro m tbl fuel h' thisV args
    have hobj : getObj (dollarSuper h x).1 h.length
        = some ⟨[], none, some x, none⟩ := by
      rw [hd]
      rw [getObj_setProp_ne (Nat.ne_of_lt hx).symm]
      exact getObj_concat_length h _
    have hpg : proxyGet (dollarSuper h x).1 h.length m = .superCall x m := by
      simp [proxyGet, hobj]
    rw [hpg]
    rfl

/-- Witness for C8: spec §8.9 on a bare instance — the wrapper is cached at
the next address, survives a second `$super` call reference-identically,
and its `action` member dispatches through `callSuper` on the instance. -/
theorem c8_super_proxy_cached_per_instance_witness :
    (0 < hPlain.length ∧ chainGet hPlain 0 "$SuperProxy" = none)
    ∧ (dollarSuper hPlain 0).2 = .obj 1
    ∧ getOwn (dollarSuper hPlain 0).1 0 "$SuperProxy" = some (.obj 1)
    ∧ dollarSuper (dollarSuper hPlain 0).1 0
      = ((dollarSuper hPlain 0).1, (dollarSuper hPlain 0).2)
    ∧ applyFn tblAB 10 (dollarSuper hPlain 0).1
        (proxyGet (dollarSuper hPlain 0).1 1 "action") (.obj 0) []
      = callSuper (applyFn tblAB 9) (dollarSuper hPlain 0).1 0 "action" [] := by
  have h := c8_super_proxy_cached_per_instance hPlain 0 (by decide) (by decide)
  exact ⟨⟨by decide, by decide⟩, h.1, h.2.1, h.2.2.1,
    h.2.2.2 "action" tblAB 9 (dollarSuper hPlain 0).1 (.obj 0) []⟩

/-- C9: reading any property name `p` whatsoever on a wrapper returned by
`$super` always yields the trap's closure `superCall t p` — the `get` trap
never consults the wrapper's or the instance's own or inherited properties,
so the result is never the instance's stored value of `p`, whether `p`
names a data field, the cached wrapper field `$SuperProxy` itself, or
nothing at all — and invoking that closure with arguments produces exactly
`callSuper(x, p, ...args)` (hence `undefined` when no ancestor override
exists, by the `callSuper` terminal case). -/
theorem c9_proxy_get_always_intercepts :
    (∀ (h : Heap) (w t : Nat) (o : Obj) (p : String), getObj h w = some o →
      o.proxyTarget = some t → proxyGet h w p = .superCall t p)
    ∧ (∀ (tbl : FnTable) (fuel : Nat) (h : Heap) (t : Nat) (p : String)
        (thisV : Value) (args : List Value),
        applyFn tbl (fuel + 1) h (.superCall t p) thisV args
          = callSuper (applyFn tbl fuel) h t p args) := by
  constructor
  · intro h w t o p ho hp
    simp [proxyGet, ho, hp]
  · intro tbl fuel h t p thisV args
    rfl

/-- Witness for C9: on the wrapper cached for the bare instance, reading the
cached-wrapper field name itself (`$SuperProxy` — a name that actually holds
a value on the instance) still yields the interception closure, and the
closure dispatches through `callSuper` (here: no ancestor override, so the
dispatch result is `undefined`). -/
theorem c9_proxy_get_always_intercepts_witness :
    getObj (dollarSuper hPlain 0).1 1 = some ⟨[], none, some 0, none⟩
    ∧ proxyGet (dollarSuper hPlain 0).1 1 "$SuperProxy"
      = .superCall 0 "$SuperProxy"
    ∧ applyFn tblAB 10 (dollarSuper hPlain 0).1 (.superCall 0 "$SuperProxy")
        (.obj 0) []
      = callSuper (applyFn tblAB 9) (dollarSuper hPlain 0).1 0 "$SuperProxy" [] :=
  ⟨by decide,
   c9_proxy_get_always_intercepts.1 (dollarSuper hPlain 0).1 1 0
     ⟨[], none, some 0, none⟩ "$SuperProxy" (by decide) rfl,
   c9_proxy_get_always_intercepts.2 tblAB 9 (dollarSuper hPlain 0).1 0
     "$SuperProxy" (.obj 0) []⟩

/-- C7: `enhance` returns the very same class value (no new class object is
created, conjunct 1); it installs every own entry of the member map onto
the class's existing prototype — unconditionally overwriting whatever value
the prototype previously held under that name, since conjunct 2 places no
condition on the prototype's prior contents (descriptor-tagged entries
install their `value`, others install as-is, per `installVal`) — and every
instance delegating to that prototype, already-constructed or future, and
lacking an own binding of the name, immediately observes the new member
(conjunct 3).  The hypotheses only rule out the member map aliasing the
prototype being mutated. -/
theorem c7_enhance_mutates_in_place (h : Heap) (c : JClass) (mA : Nat)
    (hmA : mA ≠ c.protoA) (hnd : (ownKeys h mA).Nodup)
    (hlt : c.protoA < h.length)
    (hstab : ∀ k' v d, getOwn h mA k' = some v → v = .obj d → d ≠ c.protoA) :
    (enhance h c mA).2 = c
    ∧ (∀ (k : String) (v : Value), getOwn h mA k = some v →
        getOwn (enhance h c mA).1 c.protoA k = some (installVal h v))
    ∧ (∀ (i : Nat) (oi : Obj) (k : String) (v : Value), i ≠ c.protoA →
        getObj h i = some oi → oi.proto = some c.protoA →
        lookupProp oi.props k = none → getOwn h mA k = some v →
        chainGet (enhance h c mA).1 i k = some (installVal h v)) := by
  have hinstall : ∀ (k : String) (v : Value), getOwn h mA k = some v →
      getOwn (enhance h c mA).1 c.protoA k = some (installVal h v) := by
    intro k v hv
    exact foldl_memberStep_install c.protoA mA hmA (ownKeys h mA) h hnd hlt hstab
      (mem_ownKeys_of_getOwn hv) hv
  refine ⟨rfl, hinstall, ?_⟩
  intro i oi k v hi hoi hpr hmiss hv
  have hlen : ((enhance h c mA).1).length = h.length :=
    foldl_memberStep_length c.protoA mA (ownKeys h mA) h
  have hobj : getObj (enhance h c mA).1 i = some oi := by
    have := foldl_memberStep_getObj_ne c.protoA mA (ownKeys h mA) h hi
    exact this.trans hoi
  have hb := hinstall k v hv
  unfold chainGet
  rw [hlen]
  simp only [chainLookup, hobj, hmiss, hpr]
  exact chainLookup_own hb (by omega)

/-- Witness for C7: spec §8.2 — re-declaring `x = 6` over a prototype whose
`x` was `5` overwrites it, the class value is unchanged, and the instance
constructed before the enhancement reads the new value through the chain. -/
theorem c7_enhance_mutates_in_place_witness :
    (1 ≠ (classOn 0).protoA ∧ (ownKeys hEnh 1).Nodup ∧ (classOn 0).protoA < hEnh.length)
    ∧ (enhance hEnh (classOn 0) 1).2 = classOn 0
    ∧ getOwn (enhance hEnh (classOn 0) 1).1 (classOn 0).protoA "x"
      = some (installVal hEnh (.num 6))
    ∧ chainGet (enhance hEnh (classOn 0) 1).1 2 "x"
      = some (installVal hEnh (.num 6)) := by
  have hstab : ∀ k' v d, getOwn hEnh 1 k' = some v → v = .obj d →
      d ≠ (classOn 0).protoA := by
    intro k' v d hg hd
    subst hd
    have hobj : getObj hEnh 1 = some ⟨[("x", .num 6)], none, none, none⟩ := by decide
    simp only [getOwn, hobj] at hg
    by_cases hk : "x" = k'
    · rw [lookupProp, if_pos hk] at hg
      exact absurd hg (by simp)
    · rw [lookupProp, if_neg hk] at hg
      exact absurd hg (by simp [lookupProp])
  have hmain := c7_enhance_mutates_in_place hEnh (classOn 0) 1
    (by decide) (by decide) (by decide) hstab
  exact ⟨⟨by decide, by decide, by decide⟩, hmain.1,
    hmain.2.1 "x" (.num 6) (by decide),
    hmain.2.2 2 ⟨[], some 0, none, none⟩ "x" (.num 6) (by decide) (by decide)
      (by decide) (by decide) (by decide)⟩

/-- C10: the `$IsPropertyDescriptor` test is an own-property check
(conjunct 1), so the shared installation branch of `enhance` and `extend`
treats an entry as a tagged descriptor — installing through property
definition, i.e. its `value` field (conjunct 3) — only when the marker is
an own property, and installs the entry object itself as a plain value when
the marker is absent from the entry's own properties (conjunct 2), even if
it is visible through the entry's prototype chain; conjunct 4 exhibits
this through `enhance` and through `extend`'s member loop on an entry that
inherits the marker (and, for contrast, on one that owns it). -/
theorem c10_descriptor_marker_must_be_own :
    (∀ (h : Heap) (d : Nat), getOwn h d "$IsPropertyDescriptor" = none →
      isMarkedPropertyDescriptor h (.obj d) = false)
    ∧ (∀ (h : Heap) (pA : Nat) (k : String) (d : Nat),
        getOwn h d "$IsPropertyDescriptor" = none →
        applyMember h pA k (.obj d) = setProp h pA k (.obj d))
    ∧ (∀ (h : Heap) (pA : Nat) (k : String) (d : Nat) (mv : Value),
        getOwn h d "$IsPropertyDescriptor" = some mv →
        applyMember h pA k (.obj d)
          = setProp h pA k ((getOwn h d "value").getD .undef))
    ∧ ((chainGet hInherited 2 "$IsPropertyDescriptor").isSome = true
       ∧ getOwn (enhance hInherited (classOn 0) 1).1 0 "method" = some (.obj 2)
       ∧ getOwn (extend noApp hInheritedX (classOn 0) 1).1 4 "method"
         = some (.obj 2)
       ∧ getOwn (enhance hOwnMarked (classOn 0) 1).1 0 "method"
         = some (.num 9)) := by
  refine ⟨?_, ?_, ?_, by decide, by decide, by decide, by decide⟩
  · intro h d hown
    simp [isMarkedPropertyDescriptor, hown]
  · intro h pA k d hown
    simp [applyMember, isMarkedPropertyDescriptor, hown]
  · intro h pA k d mv hown
    simp [applyMember, isMarkedPropertyDescriptor, hown]

/-- Witness for C10: the own-marker test and the two installation branches
instantiated on the concrete inherited-marker and own-marker entries. -/
theorem c10_descriptor_marker_must_be_own_witness :
    isMarkedPropertyDescriptor hInherited (.obj 2) = false
    ∧ applyMember hInherited 0 "method" (.obj 2)
      = setProp hInherited 0 "method" (.obj 2)
    ∧ applyMember hOwnMarked 0 "method" (.obj 2)
      = setProp hOwnMarked 0 "method" ((getOwn hOwnMarked 2 "value").getD .undef) :=
  ⟨c10_descriptor_marker_must_be_own.1 hInherited 2 (by decide),
   c10_descriptor_marker_must_be_own.2.1 hInherited 0 "method" 2 (by decide),
   c10_descriptor_marker_must_be_own.2.2.1 hOwnMarked 0 "method" 2 (.bool true)
     (by decide)⟩

/-- C2: on the class returned by `extend(B, D)`: its prototype is the fresh
object allocated at `h.length` (conjunct 1) whose parent link is `B`'s
prototype, surviving member installation (conjunct 2), so instances — built
by handing exactly that derived prototype to `B`'s construction function —
have their chain terminate at the derived class; construction with
arguments `A` first creates the fresh empty courier (address `hh.length`),
invokes a supplied truthy `preConstructor` with receiver = that courier and
arguments = `A`, passes the array it returns to `B`'s construction
function, and afterwards invokes a supplied truthy `constructor` with
receiver = the new instance `r` and the original arguments `A`, the whole
construction returning that instance (conjunct 3); with no `preConstructor`
supplied, `A` itself is passed unchanged to `B` (conjunct 4). -/
theorem c2_extend_construction_protocol (app : ApplySem) (h : Heap)
    (B : JClass) (descA : Nat) :
    (extend app h B descA).2.protoA = h.length
    ∧ protoOf (extend app h B descA).1 h.length = some B.protoA
    ∧ (∀ (hh : Heap) (ntp : Nat) (A : List Value) (pv : Value) (arrA : Nat)
        (bargs : List Value) (h2 h3 h5 : Heap) (r : Nat) (cv w : Value),
        (chainGet (hh ++ [emptyObj]) descA "preConstructor").getD .undef = pv →
        truthy pv = true →
        app (hh ++ [emptyObj]) pv (.obj hh.length) A = some (h2, .ret (.obj arrA)) →
        arrayToList h2 arrA = some bargs →
        B.ctor h2 (extend app h B descA).2.protoA bargs = some (h3, .inst r) →
        (chainGet (objAssign h3 r hh.length) descA "constructor").getD .undef = cv →
        truthy cv = true →
        app (objAssign h3 r hh.length) cv (.obj r) A = some (h5, .ret w) →
        (extend app h B descA).2.ctor hh ntp A = some (h5, .inst r))
    ∧ (∀ (hh : Heap) (ntp : Nat) (A : List Value) (pv0 : Value) (h3 : Heap)
        (r : Nat),
        (chainGet (hh ++ [emptyObj]) descA "preConstructor").getD .undef = pv0 →
        truthy pv0 = false →
        B.ctor (hh ++ [emptyObj]) (extend app h B descA).2.protoA A
          = some (h3, .inst r) →
        truthy ((chainGet (objAssign h3 r hh.length) descA
          "constructor").getD .undef) = false →
        (extend app h B descA).2.ctor hh ntp A
          = some (objAssign h3 r hh.length, .inst r)) := by
  refine ⟨rfl, ?_, ?_, ?_⟩
  · show protoOf (applyMembersLoop (h ++ [⟨[], some B.protoA, none, none⟩])
      h.length descA) h.length = some B.protoA
    unfold applyMembersLoop
    rw [protoOf_extendFold]
    unfold protoOf
    rw [getObj_concat_length]
  · intro hh ntp A pv arrA bargs h2 h3 h5 r cv w hpv hpt happ harr hbase hcv hct happ2
    show extendConstruct app B descA h.length hh ntp A = some (h5, .inst r)
    have hbase' : B.ctor h2 h.length bargs = some (h3, .inst r) := hbase
    simp only [extendConstruct, alloc, hpv, hpt, if_true, happ, harr,
      extendWithBaseArgs, hbase', extendAfterBase, hcv, hct, happ2]
  · intro hh ntp A pv0 h3 r hpv hpf hbase hcf
    show extendConstruct app B descA h.length hh ntp A
      = some (objAssign h3 r hh.length, .inst r)
    have hbase' : B.ctor (hh ++ [emptyObj]) h.length A = some (h3, .inst r) := hbase
    simp only [extendConstruct, alloc, hpv, hpf, Bool.false_eq_true,
      if_false, extendWithBaseArgs, hbase', extendAfterBase, hcf]

/-- Witness for C2: spec §8.4 — `extend(B, { preConstructor(a,b){return
[a+b]}, constructor(a,b){this.sum=a; this.b=b} })` constructed with
`(3, 4)` produces the instance at 5 with `v = 7`, `sum = 3`, `b = 4`. -/
theorem c2_extend_construction_protocol_witness :
    (extend (applyFn tblSum 10) hSum classBv 1).2.ctor hSumX 2 [.num 3, .num 4]
      = some (hSum5, .inst 5)
    ∧ getOwn hSum5 5 "v" = some (.num 7)
    ∧ getOwn hSum5 5 "sum" = some (.num 3)
    ∧ getOwn hSum5 5 "b" = some (.num 4) := by
  refine ⟨?_, by decide, by decide, by decide⟩
  exact (c2_extend_construction_protocol (applyFn tblSum 10) hSum classBv 1).2.2.1
    hSumX 2 [.num 3, .num 4] (.fn 10) 4 [.num 7] hSum2 hSum3 hSum5 5 (.fn 11)
    .undef (by decide) (by decide) (by decide) (by decide) (by decide)
    (by decide) (by decide) (by decide)

/-- C3: for every class produced by `extend` and every construction call in
which a truthy `preConstructor` ran against the fresh courier
(address `hh.length`) and the base construction produced instance `r`:
(a) every own field the courier has accumulated is present, with its
courier value, on the instance in the heap `objAssign h3 r hh.length`
obtained by the shallow copy that follows base construction; and (b) when a
truthy `constructor` is supplied, the construction's result is exactly the
result of invoking it on that post-copy heap with receiver = the instance
and the original arguments — its output heap is final, so a same-named
field assigned inside the `constructor` ends up with the
constructor-assigned value, while courier fields it leaves untouched
survive; the concrete §8.5 collision run exhibits `p = 1` (courier value
kept) and `q = 42` (constructor overwrote the courier's `2`). -/
theorem c3_courier_fields_copied_before_constructor (app : ApplySem) (h : Heap)
    (B : JClass) (descA : Nat) :
    (∀ (hh : Heap) (ntp : Nat) (A : List Value) (pv : Value) (arrA : Nat)
        (bargs : List Value) (h2 h3 : Heap) (r : Nat) (co : Obj) (cv : Value),
        (chainGet (hh ++ [emptyObj]) descA "preConstructor").getD .undef = pv →
        truthy pv = true →
        app (hh ++ [emptyObj]) pv (.obj hh.length) A = some (h2, .ret (.obj arrA)) →
        arrayToList h2 arrA = some bargs →
        B.ctor h2 (extend app h B descA).2.protoA bargs = some (h3, .inst r) →
        getObj h3 hh.length = some co →
        (co.props.map Prod.fst).Nodup →
        r < h3.length →
        (chainGet (objAssign h3 r hh.length) descA "constructor").getD .undef = cv →
        truthy cv = true →
        (∀ kv ∈ co.props,
          getOwn (objAssign h3 r hh.length) r kv.1 = some kv.2)
        ∧ (extend app h B descA).2.ctor hh ntp A
          = (match app (objAssign h3 r hh.length) cv (.obj r) A with
             | some (h5, .ret _) => some (h5, .inst r)
             | some (h5, .thrown e) => some (h5, .thrown e)
             | none => none))
    ∧ ((extend (applyFn tblCourier 10) hCourier classBv 1).2.ctor hCourX 2
        [.num 5]).map (fun p => (getOwn p.1 5 "p", getOwn p.1 5 "q", getOwn p.1 5 "v"))
      = some (some (.num 1), some (.num 42), some (.num 5)) := by
  refine ⟨?_, by decide⟩
  intro hh ntp A pv arrA bargs h2 h3 r co cv hpv hpt happ harr hbase hco hnd hrlt
    hcv hct
  constructor
  · exact objAssign_copies hco hnd hrlt
  · show extendConstruct app B descA h.length hh ntp A = _
    have hbase' : B.ctor h2 h.length bargs = some (h3, .inst r) := hbase
    simp only [extendConstruct, alloc, hpv, hpt, if_true, happ, harr,
      extendWithBaseArgs, hbase', extendAfterBase, hcv, hct]

/-- Witness for C3: the §8.5 collision trace — both courier fields are on
the instance before the constructor runs, and the construction equals the
constructor's run on that post-copy heap. -/
theorem c3_courier_fields_copied_before_constructor_witness :
    getOwn (objAssign hCour3 5 3) 5 "p" = some (.num 1)
    ∧ getOwn (objAssign hCour3 5 3) 5 "q" = some (.num 2)
    ∧ (extend (applyFn tblCourier 10) hCourier classBv 1).2.ctor hCourX 2 [.num 5]
      = (match applyFn tblCourier 10 (objAssign hCour3 5 3) (.fn 21) (.obj 5)
          [.num 5] with
         | some (h5, .ret _) => some (h5, .inst 5)
         | some (h5, .thrown e) => some (h5, .thrown e)
         | none => none) := by
  have H := (c3_courier_fields_copied_before_constructor (applyFn tblCourier 10)
    hCourier classBv 1).1 hCourX 2 [.num 5] (.fn 20) 4 [.num 5] hCour2 hCour3 5
    ⟨[("p", .num 1), ("q", .num 2)], none, none, none⟩ (.fn 21)
    (by decide) (by decide) (by decide) (by decide) (by decide) (by decide)
    (by decide) (by decide) (by decide) (by decide)
  exact ⟨H.1 ("p", .num 1) (by decide), H.1 ("q", .num 2) (by decide), H.2⟩
